import Mathlib

/-!
Shallow embedding of the MinerMonitor telemetry service
(`src/server/index.js`, two concatenated variants, and `src/unnamed/part_000`).

The service keeps two in-memory maps: `minersStore : id → snapshot` and
`historyStore : id → history buffer`.  `POST /v1/ingest` (behind a bearer-token
check) normalizes each submitted entry and upserts the snapshot plus appends a
history point; `GET /v1/miners` lists the snapshots sorted, each with a trailing
slice of its history.

JavaScript dynamic values are modelled by the inductive `JSVal`; numbers are
modelled as integers plus the non-finite values NaN/±Infinity (`JSNum`) —
timestamps in this code are epoch-millisecond integers, so fractional doubles
are never needed by the properties below.  `Number(·)` on strings is modelled
for optional-sign decimal integer literals (other strings coerce to NaN, as in
JS for the non-numeric strings the claims exercise).
-/

/-- A JavaScript number: a finite integer, or NaN, or ±Infinity. -/
inductive JSNum where
  | fin (v : Int)
  | nan
  | inf
  | ninf
deriving DecidableEq, Repr

/-- Number.isFinite: true exactly on finite numbers. -/
def JSNum.isFinite : JSNum → Bool
  | .fin _ => true
  | _ => false

/-- A JavaScript value (the fragment the ingest path can observe on a field). -/
inductive JSVal where
  | undefined
  | null
  | bool (b : Bool)
  | num (n : JSNum)
  | str (s : String)
deriving DecidableEq, Repr

/-- The JS `String.prototype.trim`: strip leading and trailing whitespace. -/
def jsTrim (s : String) : String :=
  ⟨((s.data.dropWhile Char.isWhitespace).reverse.dropWhile Char.isWhitespace).reverse⟩

/-- Value of an all-digit character sequence; `none` when empty or when any
character is not a decimal digit. -/
def digitsVal : List Char → Option Nat
  | [] => none
  | ds => ds.foldl
      (fun acc c => match acc with
        | none => none
        | some n => if c.isDigit then some (n * 10 + (c.toNat - 48)) else none)
      (some 0)

/-- ToNumber on a string, modelled for optional-sign decimal integer literals
and the `Infinity` forms: a whitespace-only string coerces to 0, an integer
literal to its value, and any other string (the claims only exercise
non-numeric strings beyond these) to NaN. -/
def strToNumber (s : String) : JSNum :=
  match (jsTrim s).data with
  | [] => .fin 0
  | '-' :: ds =>
      if (⟨ds⟩ : String) = "Infinity" then .ninf
      else match digitsVal ds with
           | some n => .fin (-(n : Int))
           | none => .nan
  | '+' :: ds =>
      if (⟨ds⟩ : String) = "Infinity" then .inf
      else match digitsVal ds with
           | some n => .fin (n : Int)
           | none => .nan
  | ds =>
      if (⟨ds⟩ : String) = "Infinity" then .inf
      else match digitsVal ds with
           | some n => .fin (n : Int)
           | none => .nan

/-- The JS ToNumber coercion `Number(v)`. -/
def toNumber : JSVal → JSNum
  | .undefined => .nan
  | .null => .fin 0
  | .bool b => .fin (if b then 1 else 0)
  | .num n => n
  | .str s => strToNumber s

/-- JS truthiness: everything is truthy except undefined, null, false, 0, NaN
and the empty string. -/
def truthy : JSVal → Bool
  | .undefined => false
  | .null => false
  | .bool b => b
  | .num (.fin v) => v != 0
  | .num .nan => false
  | .num .inf => true
  | .num .ninf => true
  | .str s => s != ""

/-- JS nullishness: only undefined and null are nullish (the `??` operator). -/
def jsNullish : JSVal → Bool
  | .undefined => true
  | .null => true
  | _ => false

/-- The JS `a || b` operator: `a` when truthy, else `b`. -/
def jsOr (a b : JSVal) : JSVal := if truthy a then a else b

/-- The JS `a ?? b` operator: `b` when `a` is nullish, else `a`. -/
def jsNullishOr (a b : JSVal) : JSVal := if jsNullish a then b else a

/-- ToString on a number. -/
def numToString : JSNum → String
  | .fin v => toString v
  | .nan => "NaN"
  | .inf => "Infinity"
  | .ninf => "-Infinity"

/-- The JS ToString coercion `String(v)`. -/
def toJSString : JSVal → String
  | .undefined => "undefined"
  | .null => "null"
  | .bool b => if b then "true" else "false"
  | .num n => numToString n
  | .str s => s

/-- Lexicographic code-point order on character sequences. -/
def charListLe : List Char → List Char → Bool
  | [], _ => true
  | _ :: _, [] => false
  | a :: as, b :: bs => if a = b then charListLe as bs else decide (a < b)

/-- String order used to model `localeCompare`-based sorting: lexicographic by
code point, with which the locale-aware comparison agrees on the ASCII
identifiers this development uses. -/
def strLe (a b : String) : Bool := charListLe a.data b.data

/-- Strict version of `strLe`. -/
def strLt (a b : String) : Bool := strLe a b && !(a == b)

/-- A JS object is modelled as an insertion-ordered association list with
unique keys (JS objects cannot hold the same key twice). -/
abbrev JSObj := List (String × JSVal)

/-- Lookup in an insertion-ordered string-keyed collection; models both
`Map.prototype.get` and JS object property reads (`none` = absent, i.e. the
read yields undefined). -/
def mapGet {α : Type} (m : List (String × α)) (k : String) : Option α :=
  (m.find? (fun p => p.1 = k)).map Prod.snd

/-- Keyed update: replaces the value when the key exists — keeping its
insertion position — else appends the new binding at the end.  This models
both `Map.prototype.set` and JS object property assignment. -/
def mapSet {α : Type} (m : List (String × α)) (k : String) (v : α) : List (String × α) :=
  match m with
  | [] => [(k, v)]
  | p :: t => if p.1 = k then (k, v) :: t else p :: mapSet t k v

/-- Property read `o.k` on a JS object. -/
def objGet (o : JSObj) (k : String) : Option JSVal := mapGet o k

/-- Property assignment `o.k = v` on a JS object. -/
def objSet (o : JSObj) (k : String) (v : JSVal) : JSObj := mapSet o k v

/-- The object literal `{ ts: safeTs, ...metrics }` from the ingest handler:
start from an object holding only `ts`, then assign every property of
`metrics` in order.  A `ts` key inside `metrics` therefore overwrites the
explicitly written timestamp. -/
def mkPoint (safeTs : JSNum) (metrics : JSObj) : JSObj :=
  metrics.foldl (fun acc p => objSet acc p.1 p.2) [("ts", JSVal.num safeTs)]

/-- One entry `m` of the submitted `miners` array.  Fields read through `m?.x`
are `JSVal.undefined` when absent; `metrics` is `none` when `m?.metrics` is
absent/nullish (so `m?.metrics?.ts` reads as undefined and `m?.metrics`
or-defaulted with an object literal gives the empty object). -/
structure Entry where
  id : JSVal
  name : JSVal
  metrics : Option JSObj
deriving DecidableEq, Repr

/-- The stored snapshot `{ id, name, last_ts, metrics }`. -/
structure Snapshot where
  id : String
  name : String
  last_ts : JSNum
  metrics : JSObj
deriving DecidableEq, Repr

/-- A history point `{ts, ...metrics}` is itself a JS object. -/
abbrev Point := JSObj

/-- The two in-memory maps of the service. -/
structure Store where
  miners : List (String × Snapshot)
  history : List (String × List Point)
deriving DecidableEq, Repr

/-- The initial state: both maps empty. -/
def emptyStore : Store := ⟨[], []⟩

/-- History cap of the first `index.js` variant and of `part_000`. -/
def HISTORY_MAX_POINTS : Nat := 4000

/-- History cap of the second `index.js` variant. -/
def HISTORY_MAX_POINTS_V2 : Nat := 6000

/-- JS `arr.slice(-n)` for a nonnegative `n`: the trailing `n` elements
(`slice(-0)` is `slice(0)`, the whole array). -/
def jsSliceNeg {α : Type} (n : Nat) (l : List α) : List α :=
  if n = 0 then l else l.drop (l.length - n)

/-- Function `clampHistory`, acting on one buffer: when the length exceeds the
cap, keep only the trailing `cap` points (`arr.slice(-HISTORY_MAX_POINTS)`). -/
def clampHistory (cap : Nat) (arr : List Point) : List Point :=
  if arr.length > cap then jsSliceNeg cap arr else arr

/-- The net effect on the buffer of one device of `arr.push(point);
historyStore.set(id, arr); clampHistory(id);`. -/
def appendBuf (cap : Nat) (buf : List Point) (p : Point) : List Point :=
  clampHistory cap (buf ++ [p])

/-- Timestamp resolution of `index.js` (both variants):
`const ts = Number(m?.metrics?.ts ?? now); const safeTs = Number.isFinite(ts) ? ts : now;`. -/
def resolveTs (now : Int) (tsRaw : JSVal) : JSNum :=
  let ts := toNumber (jsNullishOr tsRaw (.num (.fin now)))
  if ts.isFinite then ts else .fin now

/-- Timestamp resolution of `part_000`:
`const ts = Number(m?.metrics?.ts || now); const safeTs = Number.isFinite(ts) ? ts : now;`. -/
def resolveTsP0 (now : Int) (tsRaw : JSVal) : JSNum :=
  let ts := toNumber (jsOr tsRaw (.num (.fin now)))
  if ts.isFinite then ts else .fin now

/-- The raw value of `m?.metrics?.ts`. -/
def Entry.tsRaw (m : Entry) : JSVal :=
  match m.metrics with
  | none => .undefined
  | some o => (objGet o "ts").getD .undefined

/-- The identity of an entry: `String(m?.id || "").trim()`. -/
def Entry.key (m : Entry) : String :=
  jsTrim (toJSString (jsOr m.id (.str "")))

/-- One iteration of the ingest loop of `index.js` (timestamp via `??`),
parameterized by the history cap of the variant. -/
def processEntry (cap : Nat) (now : Int) (st : Store) (m : Entry) : Store :=
  let id := m.key
  if id = "" then st
  else
    let name := toJSString (jsOr m.name (.str id))
    let safeTs := resolveTs now m.tsRaw
    let metrics := m.metrics.getD []
    let miners := mapSet st.miners id ⟨id, name, safeTs, metrics⟩
    let point := mkPoint safeTs metrics
    let arr := (mapGet st.history id).getD []
    let history := mapSet st.history id (appendBuf cap arr point)
    ⟨miners, history⟩

/-- One iteration of the ingest loop of `part_000` (timestamp via `||`,
history cap `HISTORY_MAX_POINTS`). -/
def processEntryP0 (now : Int) (st : Store) (m : Entry) : Store :=
  let id := m.key
  if id = "" then st
  else
    let name := toJSString (jsOr m.name (.str id))
    let safeTs := resolveTsP0 now m.tsRaw
    let metrics := m.metrics.getD []
    let miners := mapSet st.miners id ⟨id, name, safeTs, metrics⟩
    let point := mkPoint safeTs metrics
    let arr := (mapGet st.history id).getD []
    let history := mapSet st.history id (appendBuf HISTORY_MAX_POINTS arr point)
    ⟨miners, history⟩

/-- The ingest loop of `index.js`: `now = Date.now()` is read once, then each
entry of `miners` is processed in order. -/
def ingestBatch (cap : Nat) (now : Int) (st : Store) (ms : List Entry) : Store :=
  ms.foldl (processEntry cap now) st

/-- The ingest loop of `part_000`. -/
def ingestBatchP0 (now : Int) (st : Store) (ms : List Entry) : Store :=
  ms.foldl (processEntryP0 now) st

/-- The JS `s.startsWith(pre)`. -/
def jsStartsWith (s pre : String) : Bool := pre.data.isPrefixOf s.data

/-- The JS `s.slice(n)` for a nonnegative `n`. -/
def jsDropStr (s : String) (n : Nat) : String := ⟨s.data.drop n⟩

/-- Bearer-token extraction from the authorization header:
`header.startsWith("Bearer ") ? header.slice(7) : ""`. -/
def bearerToken (header : String) : String :=
  if jsStartsWith header "Bearer " then jsDropStr header 7 else ""

/-- The decision of the `auth` middleware: the request passes exactly when the
configured secret is a non-empty string and the presented token equals it
(`if (!API_KEY || token !== API_KEY) return 401`). -/
def authOk (apiKey : String) (header : String) : Bool :=
  !(apiKey == "") && (bearerToken header == apiKey)

/-- Observable outcome of `POST /v1/ingest`: either the 401 body
`{ error: "unauthorized" }`, or the 200 body `{ ok: true, count }`. -/
inductive IngestResult where
  | unauthorized
  | ok (count : Nat)
deriving DecidableEq, Repr

/-- The whole `POST /v1/ingest` endpoint of `index.js`: the `auth` middleware
runs first (`authHeader = none` models an absent authorization header, read as
`""` by the middleware); on success the handler reads `req.body?.miners || []`
(`body = none` models an absent or nullish `miners` field), processes every
entry and acknowledges with the raw submitted length. -/
def postIngest (cap : Nat) (apiKey : String) (authHeader : Option String)
    (now : Int) (st : Store) (body : Option (List Entry)) : IngestResult × Store :=
  if authOk apiKey (authHeader.getD "") then
    let miners := body.getD []
    (.ok miners.length, ingestBatch cap now st miners)
  else (.unauthorized, st)

/-- `Array.from(minersStore.values())`: the stored snapshots in insertion
order. -/
def minersList (st : Store) : List Snapshot := st.miners.map Prod.snd

/-- The `GET /v1/miners` projector of the first `index.js` variant:
stable sort by `a.id.localeCompare(b.id)` (locale-aware comparison modelled as
the string order, with which it agrees on the ASCII identifiers used here),
then attach `history = (historyStore.get(m.id) || []).slice(-1600)`. -/
def listMiners (st : Store) : List (Snapshot × List Point) :=
  ((minersList st).mergeSort (fun a b => strLe a.id b.id)).map
    (fun m => (m, jsSliceNeg 1600 ((mapGet st.history m.id).getD [])))

/-- The value `a.name || a.id` used by the comparator of the second variant: the
stored `name` is a JS string, falsy exactly when empty. -/
def nameOrId (m : Snapshot) : String := if m.name = "" then m.id else m.name

/-- The `GET /v1/miners` projector of the second `index.js` variant:
stable sort by `(a.name || a.id).localeCompare(b.name || b.id)`, then attach
the trailing 2500 history points. -/
def listMinersV2 (st : Store) : List (Snapshot × List Point) :=
  ((minersList st).mergeSort (fun a b => strLe (nameOrId a) (nameOrId b))).map
    (fun m => (m, jsSliceNeg 2500 ((mapGet st.history m.id).getD [])))

/-- The `GET /v1/miners` projector of `part_000`: sort by id, trailing 1200
points. -/
def listMinersP0 (st : Store) : List (Snapshot × List Point) :=
  ((minersList st).mergeSort (fun a b => strLe a.id b.id)).map
    (fun m => (m, jsSliceNeg 1200 ((mapGet st.history m.id).getD [])))

/-- Modelled from the words of the spec, for comparison with the sort in the code (the
code itself carries no such comparator): the claimed ordering relation —
primarily by display name (falling back to `id` when the name is absent),
with `id` as the final tiebreak. -/
def specNameOrder (a b : Snapshot) : Prop :=
  strLt (nameOrId a) (nameOrId b) = true
  ∨ (nameOrId a = nameOrId b ∧ strLe a.id b.id = true)


/-! Helper lemmas about the keyed-map model. -/

theorem mapGet_nil {α : Type} (k : String) : mapGet ([] : List (String × α)) k = none := rfl

theorem mapGet_cons {α : Type} (p : String × α) (t : List (String × α)) (k : String) :
    mapGet (p :: t) k = if p.1 = k then some p.2 else mapGet t k := by
  by_cases h : p.1 = k <;> simp [mapGet, List.find?, h]

theorem mapSet_nil {α : Type} (k : String) (v : α) : mapSet [] k v = [(k, v)] := rfl

theorem mapSet_cons {α : Type} (p : String × α) (t : List (String × α)) (k : String) (v : α) :
    mapSet (p :: t) k v = if p.1 = k then (k, v) :: t else p :: mapSet t k v := rfl

theorem mapGet_mapSet_self {α : Type} (m : List (String × α)) (k : String) (v : α) :
    mapGet (mapSet m k v) k = some v := by
  induction m with
  | nil => simp [mapSet_nil, mapGet_cons]
  | cons p t ih =>
      by_cases h : p.1 = k
      · simp [mapSet_cons, h, mapGet_cons]
      · simp [mapSet_cons, h, mapGet_cons, ih]

theorem mapGet_mapSet_ne {α : Type} (m : List (String × α)) {k k' : String} (v : α)
    (h : k' ≠ k) : mapGet (mapSet m k v) k' = mapGet m k' := by
  induction m with
  | nil => simp [mapSet_nil, mapGet_cons, mapGet_nil, Ne.symm h]
  | cons p t ih =>
      by_cases hp : p.1 = k
      · simp [mapSet_cons, hp, mapGet_cons, Ne.symm h]
      · by_cases hp' : p.1 = k'
        · simp [mapSet_cons, hp, mapGet_cons, hp', h]
        · simp [mapSet_cons, hp, mapGet_cons, hp', ih]

theorem keys_mapSet {α : Type} (m : List (String × α)) (k : String) (v : α) :
    (mapSet m k v).map Prod.fst = m.map Prod.fst
    ∨ (mapSet m k v).map Prod.fst = m.map Prod.fst ++ [k] := by
  induction m with
  | nil => right; simp [mapSet_nil]
  | cons p t ih =>
      by_cases h : p.1 = k
      · left; simp [mapSet_cons, h]
      · rcases ih with ih | ih
        · left; simp [mapSet_cons, h, ih]
        · right; simp [mapSet_cons, h, ih]

theorem nodup_keys_mapSet {α : Type} (m : List (String × α)) (k : String) (v : α)
    (hn : (m.map Prod.fst).Nodup) : ((mapSet m k v).map Prod.fst).Nodup := by
  induction m with
  | nil => simp [mapSet_nil]
  | cons p t ih =>
      simp only [List.map_cons, List.nodup_cons] at hn
      by_cases h : p.1 = k
      · simp only [mapSet_cons, if_pos h, List.map_cons, List.nodup_cons]
        exact ⟨h ▸ hn.1, hn.2⟩
      · simp only [mapSet_cons, if_neg h, List.map_cons, List.nodup_cons]
        refine ⟨?_, ih hn.2⟩
        rcases keys_mapSet t k v with hk | hk
        · rw [hk]; exact hn.1
        · rw [hk]
          simp only [List.mem_append, List.mem_singleton]
          rintro (hc | hc)
          · exact hn.1 hc
          · exact h hc

theorem filter_key_length_one {α : Type} (m : List (String × α)) (k : String)
    (hn : (m.map Prod.fst).Nodup) (hg : (mapGet m k).isSome = true) :
    (m.filter (fun p => p.1 = k)).length = 1 := by
  induction m with
  | nil => simp [mapGet_nil] at hg
  | cons p t ih =>
      simp only [List.map_cons, List.nodup_cons] at hn
      by_cases h : p.1 = k
      · have hnone : t.filter (fun p => p.1 = k) = [] := by
          apply List.filter_eq_nil_iff.mpr
          intro q hq hc
          have hmem : q.1 ∈ t.map Prod.fst := List.mem_map_of_mem Prod.fst hq
          have hqk : q.1 = k := by simpa using hc
          rw [hqk] at hmem
          exact hn.1 (h ▸ hmem)
        simp [List.filter_cons, h, hnone]
      · have hg' : (mapGet t k).isSome = true := by
          simpa [mapGet_cons, h] using hg
        simpa [List.filter_cons, h] using ih hn.2 hg'

/-! Helper lemmas about the code-point order. -/

theorem charListLe_trans :
    ∀ (as bs cs : List Char), charListLe as bs = true → charListLe bs cs = true →
      charListLe as cs = true := by
  intro as
  induction as with
  | nil => intro bs cs h1 h2; simp [charListLe]
  | cons a as ih =>
      intro bs cs h1 h2
      cases bs with
      | nil => simp [charListLe] at h1
      | cons b bs' =>
          cases cs with
          | nil => simp [charListLe] at h2
          | cons c cs' =>
              simp only [charListLe] at h1 h2 ⊢
              by_cases hab : a = b
              · subst hab
                rw [if_pos rfl] at h1
                by_cases hac : a = c
                · subst hac
                  rw [if_pos rfl] at h2 ⊢
                  exact ih bs' cs' h1 h2
                · rw [if_neg hac] at h2 ⊢
                  exact h2
              · rw [if_neg hab] at h1
                have hab' : a < b := of_decide_eq_true h1
                by_cases hbc : b = c
                · subst hbc
                  rw [if_neg hab]
                  exact h1
                · rw [if_neg hbc] at h2
                  have hbc' : b < c := of_decide_eq_true h2
                  have hac : a < c := lt_trans hab' hbc'
                  rw [if_neg (ne_of_lt hac)]
                  exact decide_eq_true hac

theorem charListLe_total (as bs : List Char) :
    charListLe as bs = true ∨ charListLe bs as = true := by
  induction as generalizing bs with
  | nil => left; simp [charListLe]
  | cons a as ih =>
      cases bs with
      | nil => right; simp [charListLe]
      | cons b bs' =>
          by_cases hab : a = b
          · subst hab
            simp only [charListLe, if_pos rfl]
            exact ih bs'
          · rcases lt_trichotomy a b with hlt | heq | hgt
            · left
              simp only [charListLe, if_neg hab]
              exact decide_eq_true hlt
            · exact absurd heq hab
            · right
              simp only [charListLe, if_neg (Ne.symm hab)]
              exact decide_eq_true hgt

theorem strLe_trans (a b c : String) (h1 : strLe a b = true) (h2 : strLe b c = true) :
    strLe a c = true :=
  charListLe_trans a.data b.data c.data h1 h2

theorem strLe_total (a b : String) : strLe a b || strLe b a := by
  rcases charListLe_total a.data b.data with h | h
  · simp [strLe, h]
  · simp [strLe, h]

/-! Helper lemmas about the bounded history buffer. -/

theorem length_appendBuf_le (cap : Nat) (hcap : 0 < cap) (l : List Point) (p : Point)
    (h : l.length ≤ cap) : (appendBuf cap l p).length ≤ cap := by
  unfold appendBuf clampHistory jsSliceNeg
  by_cases hlen : (l ++ [p]).length > cap
  · rw [if_pos hlen, if_neg (by omega : ¬ cap = 0), List.length_drop]
    omega
  · rw [if_neg hlen]
    omega

theorem appendBuf_drop (cap : Nat) (hcap : 0 < cap) (xs : List Point) (p : Point) :
    appendBuf cap (xs.drop (xs.length - cap)) p
      = (xs ++ [p]).drop ((xs ++ [p]).length - cap) := by
  by_cases hn : xs.length < cap
  · have h0 : xs.length - cap = 0 := by omega
    have h1 : (xs ++ [p]).length - cap = 0 := by simp; omega
    rw [h0, h1, List.drop_zero, List.drop_zero]
    unfold appendBuf clampHistory
    rw [if_neg (by simp; omega)]
  · have hd : (xs.drop (xs.length - cap)).length = cap := by
      rw [List.length_drop]; omega
    unfold appendBuf clampHistory
    rw [if_pos (by rw [List.length_append, hd]; simp)]
    unfold jsSliceNeg
    rw [if_neg (by omega : ¬ cap = 0)]
    rw [List.length_append, hd]
    have h2 : cap + 1 - cap = 1 := by omega
    simp only [List.length_cons, List.length_nil]
    rw [h2]
    rw [List.drop_append_of_le_length (by rw [hd]; omega : 1 ≤ (xs.drop (xs.length - cap)).length)]
    rw [List.drop_drop]
    have h3 : (xs ++ [p]).length - cap = xs.length - cap + 1 := by simp; omega
    rw [h3]
    rw [List.drop_append_of_le_length (by omega : xs.length - cap + 1 ≤ xs.length)]

theorem foldl_appendBuf (cap : Nat) (hcap : 0 < cap) (pts : List Point) :
    List.foldl (appendBuf cap) [] pts = pts.drop (pts.length - cap) := by
  induction pts using List.reverseRecOn with
  | nil => simp
  | append_singleton xs x ih =>
      rw [List.foldl_append, List.foldl_cons, List.foldl_nil, ih]
      exact appendBuf_drop cap hcap xs x

/-! Helper lemmas about the ingest step. -/

theorem key_of_falsy (m : Entry) (h : truthy m.id = false) : m.key = "" := by
  simp [Entry.key, jsOr, h, toJSString, jsTrim]

theorem key_of_truthy (m : Entry) (h : truthy m.id = true) :
    m.key = jsTrim (toJSString m.id) := by
  simp [Entry.key, jsOr, h]

theorem processEntry_skip (cap : Nat) (now : Int) (st : Store) (m : Entry)
    (h : m.key = "") : processEntry cap now st m = st := by
  simp [processEntry, h]

theorem processEntryP0_skip (now : Int) (st : Store) (m : Entry)
    (h : m.key = "") : processEntryP0 now st m = st := by
  simp [processEntryP0, h]

theorem processEntry_miners (cap : Nat) (now : Int) (st : Store) (m : Entry)
    (h : m.key ≠ "") :
    (processEntry cap now st m).miners
      = mapSet st.miners m.key
          ⟨m.key, toJSString (jsOr m.name (.str m.key)), resolveTs now m.tsRaw,
            m.metrics.getD []⟩ := by
  simp [processEntry, h]

theorem processEntry_history (cap : Nat) (now : Int) (st : Store) (m : Entry)
    (h : m.key ≠ "") :
    (processEntry cap now st m).history
      = mapSet st.history m.key
          (appendBuf cap ((mapGet st.history m.key).getD [])
            (mkPoint (resolveTs now m.tsRaw) (m.metrics.getD []))) := by
  simp [processEntry, h]

theorem processEntryP0_miners (now : Int) (st : Store) (m : Entry)
    (h : m.key ≠ "") :
    (processEntryP0 now st m).miners
      = mapSet st.miners m.key
          ⟨m.key, toJSString (jsOr m.name (.str m.key)), resolveTsP0 now m.tsRaw,
            m.metrics.getD []⟩ := by
  simp [processEntryP0, h]

/-- The length-bound invariant on every stored history buffer. -/
def HistLenInv (cap : Nat) (st : Store) : Prop :=
  ∀ id buf, mapGet st.history id = some buf → buf.length ≤ cap

theorem histLenInv_empty (cap : Nat) : HistLenInv cap emptyStore := by
  intro id buf h
  simp [emptyStore, mapGet_nil] at h

theorem histLenInv_processEntry (cap : Nat) (now : Int) (st : Store) (m : Entry)
    (hcap : 0 < cap) (h : HistLenInv cap st) :
    HistLenInv cap (processEntry cap now st m) := by
  intro id buf hg
  by_cases hk : m.key = ""
  · rw [processEntry_skip cap now st m hk] at hg
    exact h id buf hg
  · rw [processEntry_history cap now st m hk] at hg
    by_cases hid : id = m.key
    · subst hid
      rw [mapGet_mapSet_self] at hg
      have hbuf := Option.some.inj hg
      subst hbuf
      apply length_appendBuf_le cap hcap
      cases harr : mapGet st.history m.key with
      | none => simp [harr]
      | some a => simpa [harr] using h m.key a harr
    · rw [mapGet_mapSet_ne _ _ hid] at hg
      exact h id buf hg

theorem histLenInv_ingestBatch (cap : Nat) (now : Int) (ms : List Entry) (st : Store)
    (hcap : 0 < cap) (h : HistLenInv cap st) :
    HistLenInv cap (ingestBatch cap now st ms) := by
  induction ms generalizing st with
  | nil => exact h
  | cons m t ih =>
      exact ih (processEntry cap now st m) (histLenInv_processEntry cap now st m hcap h)

/-! Helper lemmas about the history-point literal. -/

theorem objGet_foldl_objSet_ne (ms : JSObj) (acc : JSObj) (k : String)
    (h : ∀ p ∈ ms, p.1 ≠ k) :
    objGet (ms.foldl (fun a p => objSet a p.1 p.2) acc) k = objGet acc k := by
  induction ms generalizing acc with
  | nil => rfl
  | cons q t ih =>
      rw [List.foldl_cons, ih _ (fun p hp => h p (List.mem_cons_of_mem q hp))]
      exact mapGet_mapSet_ne acc q.2 (Ne.symm (h q (List.mem_cons_self q t)))

theorem objGet_foldl_objSet_found (ms : JSObj) (k : String) (v : JSVal)
    (hn : (ms.map Prod.fst).Nodup) (h : objGet ms k = some v) :
    ∀ acc : JSObj, objGet (ms.foldl (fun a p => objSet a p.1 p.2) acc) k = some v := by
  induction ms with
  | nil => simp [objGet, mapGet_nil] at h
  | cons q t ih =>
      intro acc
      rw [List.foldl_cons]
      simp only [List.map_cons, List.nodup_cons] at hn
      by_cases hq : q.1 = k
      · have hv : q.2 = v := by simpa [objGet, mapGet_cons, hq] using h
        have hnk : ∀ p ∈ t, p.1 ≠ k := by
          intro p hp hc
          apply hn.1
          rw [hq, ← hc]
          exact List.mem_map_of_mem Prod.fst hp
        rw [objGet_foldl_objSet_ne t _ k hnk, hq]
        show mapGet (mapSet acc k q.2) k = some v
        rw [mapGet_mapSet_self, hv]
      · have h' : objGet t k = some v := by simpa [objGet, mapGet_cons, hq] using h
        exact ih hn.2 h' _

theorem mapGet_eq_none {α : Type} (m : List (String × α)) (k : String) :
    mapGet m k = none ↔ ∀ p ∈ m, p.1 ≠ k := by
  induction m with
  | nil => simp [mapGet_nil]
  | cons p t ih => by_cases h : p.1 = k <;> simp [mapGet_cons, h, ih]

theorem mkPoint_ts_absent (safeTs : JSNum) (metrics : JSObj)
    (h : objGet metrics "ts" = none) :
    objGet (mkPoint safeTs metrics) "ts" = some (.num safeTs) := by
  have h' : ∀ p ∈ metrics, p.1 ≠ "ts" := (mapGet_eq_none metrics "ts").mp h
  unfold mkPoint
  rw [objGet_foldl_objSet_ne _ _ _ h']
  rfl

theorem mkPoint_ts_present (safeTs : JSNum) (v : JSVal) (metrics : JSObj)
    (hn : (metrics.map Prod.fst).Nodup) (h : objGet metrics "ts" = some v) :
    objGet (mkPoint safeTs metrics) "ts" = some v :=
  objGet_foldl_objSet_found metrics "ts" v hn h _

/-! Helper lemmas about the read projectors. -/

theorem listMiners_fst (st : Store) :
    (listMiners st).map Prod.fst
      = (minersList st).mergeSort (fun a b => strLe a.id b.id) := by
  simp [listMiners, List.map_map, Function.comp_def]

theorem listMinersV2_fst (st : Store) :
    (listMinersV2 st).map Prod.fst
      = (minersList st).mergeSort (fun a b => strLe (nameOrId a) (nameOrId b)) := by
  simp [listMinersV2, List.map_map, Function.comp_def]

theorem listMinersP0_fst (st : Store) :
    (listMinersP0 st).map Prod.fst
      = (minersList st).mergeSort (fun a b => strLe a.id b.id) := by
  simp [listMinersP0, List.map_map, Function.comp_def]

theorem jsSliceNeg_length {α : Type} (n : Nat) (hn : 0 < n) (l : List α) :
    (jsSliceNeg n l).length = min n l.length := by
  unfold jsSliceNeg
  rw [if_neg (by omega : ¬ n = 0), List.length_drop]
  omega

theorem take_append_jsSliceNeg {α : Type} (n : Nat) (hn : 0 < n) (l : List α) :
    l.take (l.length - n) ++ jsSliceNeg n l = l := by
  unfold jsSliceNeg
  rw [if_neg (by omega : ¬ n = 0)]
  exact List.take_append_drop _ l

/-! Helper lemmas about timestamp resolution. -/

theorem resolveTs_isFinite (now : Int) (v : JSVal) : (resolveTs now v).isFinite = true := by
  unfold resolveTs
  by_cases h : (toNumber (jsNullishOr v (.num (.fin now)))).isFinite = true
  · rw [if_pos h]; exact h
  · rw [if_neg h]; rfl

theorem resolveTsP0_isFinite (now : Int) (v : JSVal) :
    (resolveTsP0 now v).isFinite = true := by
  unfold resolveTsP0
  by_cases h : (toNumber (jsOr v (.num (.fin now)))).isFinite = true
  · rw [if_pos h]; exact h
  · rw [if_neg h]; rfl

theorem resolveTs_of_finite (now : Int) (v : JSVal) (h1 : jsNullish v = false)
    (h2 : (toNumber v).isFinite = true) : resolveTs now v = toNumber v := by
  simp [resolveTs, jsNullishOr, h1, h2]

theorem resolveTs_fallback (now : Int) (v : JSVal)
    (h : jsNullish v = true ∨ (toNumber v).isFinite = false) :
    resolveTs now v = .fin now := by
  by_cases hnull : jsNullish v = true
  · simp [resolveTs, jsNullishOr, hnull, toNumber, JSNum.isFinite]
  · rcases h with h | h
    · exact absurd h hnull
    · simp [resolveTs, jsNullishOr, hnull, h]

theorem resolveTsP0_of_finite (now : Int) (v : JSVal) (h1 : truthy v = true)
    (h2 : (toNumber v).isFinite = true) : resolveTsP0 now v = toNumber v := by
  simp [resolveTsP0, jsOr, h1, h2]

theorem resolveTsP0_fallback (now : Int) (v : JSVal)
    (h : truthy v = false ∨ (toNumber v).isFinite = false) :
    resolveTsP0 now v = .fin now := by
  by_cases ht : truthy v = true
  · rcases h with h | h
    · exact absurd ht (by simp [h])
    · simp [resolveTsP0, jsOr, ht, h]
  · have ht' : truthy v = false := by simpa using ht
    simp [resolveTsP0, jsOr, ht', toNumber, JSNum.isFinite]

theorem processEntry_last_ts (cap : Nat) (now : Int) (st : Store) (m : Entry)
    (h : m.key ≠ "") :
    (mapGet (processEntry cap now st m).miners m.key).map Snapshot.last_ts
      = some (resolveTs now m.tsRaw) := by
  rw [processEntry_miners cap now st m h, mapGet_mapSet_self]
  rfl

theorem processEntryP0_last_ts (now : Int) (st : Store) (m : Entry)
    (h : m.key ≠ "") :
    (mapGet (processEntryP0 now st m).miners m.key).map Snapshot.last_ts
      = some (resolveTsP0 now m.tsRaw) := by
  rw [processEntryP0_miners now st m h, mapGet_mapSet_self]
  rfl

/-- Evaluation of a stable two-element sort. -/
theorem mergeSort_pair {α : Type} (le : α → α → Bool) (x y : α) :
    [x, y].mergeSort le = if le x y then [x, y] else [y, x] := by
  rw [List.mergeSort]
  simp [List.splitInTwo, List.splitAt_eq, List.merge]

/-! Claim theorems. -/

/-- C1: for every device id and every sequence of ingested entries, the
history buffer of the device never exceeds the configured cap
(`HISTORY_MAX_POINTS` in the first variant and `part_000`,
`HISTORY_MAX_POINTS_V2` in the second) after any mutation; and a chain of
appends starting from an empty buffer leaves exactly the most recent `cap`
points in arrival order (so appending `cap + 1` points leaves the last
`cap`). -/
theorem thm_C1 (cap : Nat)
    (hcap : cap = HISTORY_MAX_POINTS ∨ cap = HISTORY_MAX_POINTS_V2)
    (now : Int) (ms : List Entry) (id : String) (pts : List Point) :
    (∀ buf, mapGet (ingestBatch cap now emptyStore ms).history id = some buf →
        buf.length ≤ cap)
    ∧ List.foldl (appendBuf cap) [] pts = pts.drop (pts.length - cap) := by
  have hpos : 0 < cap := by
    rcases hcap with h | h <;>
      simp [h, HISTORY_MAX_POINTS, HISTORY_MAX_POINTS_V2]
  exact ⟨fun buf h =>
      histLenInv_ingestBatch cap now ms emptyStore hpos (histLenInv_empty cap) id buf h,
    foldl_appendBuf cap hpos pts⟩

/-- C1 witness: a singleton ingest keeps the buffer within the cap, and a
one-point append chain equals the arrival sequence. -/
theorem thm_C1_witness :
    ([[("ts", JSVal.num (.fin 5))]] : List Point).length ≤ HISTORY_MAX_POINTS
    ∧ List.foldl (appendBuf HISTORY_MAX_POINTS) [] [[("ts", JSVal.num (.fin 5))]]
        = [[("ts", JSVal.num (.fin 5))]] := by
  have h := thm_C1 HISTORY_MAX_POINTS (Or.inl rfl) 5
    [⟨.str "A", .undefined, none⟩] "A" [[("ts", JSVal.num (.fin 5))]]
  exact ⟨h.1 _ rfl, by rw [h.2]; rfl⟩

/-- C2 counterexample: in `part_000` an entry whose `metrics.ts` is the number
0 — a value whose `Number(·)` coercion is the finite number 0 — is stored with
`last_ts = now` (here 1000), not with `Number(metrics.ts) = 0`: the `||`
operator discards every falsy `metrics.ts` before the coercion. -/
theorem cex_C2 :
    (mapGet (processEntryP0 1000 emptyStore
        ⟨.str "A", .undefined, some [("ts", .num (.fin 0))]⟩).miners "A").map Snapshot.last_ts
      = some (.fin 1000)
    ∧ (toNumber (.num (.fin 0))).isFinite = true
    ∧ some (JSNum.fin 1000) ≠ some (JSNum.fin 0) :=
  ⟨rfl, rfl, by decide⟩

/-- C2 (amended): the stored `last_ts` is always finite; in `index.js` it
equals `Number(metrics.ts)` whenever `metrics.ts` is non-nullish and the
coercion is finite, and falls back to the server value `now` when `metrics.ts` is
nullish (absent, undefined or null) or coerces to NaN/±Infinity; in `part_000`
it equals `Number(metrics.ts)` whenever `metrics.ts` is truthy and the
coercion is finite, and falls back to `now` when `metrics.ts` is falsy
(absent, undefined, null, false, 0, NaN or "") or coerces to non-finite. -/
theorem thm_C2 (now : Int) (v : JSVal) :
    (resolveTs now v).isFinite = true
    ∧ (resolveTsP0 now v).isFinite = true
    ∧ (jsNullish v = false → (toNumber v).isFinite = true → resolveTs now v = toNumber v)
    ∧ (jsNullish v = true ∨ (toNumber v).isFinite = false → resolveTs now v = .fin now)
    ∧ (truthy v = true → (toNumber v).isFinite = true → resolveTsP0 now v = toNumber v)
    ∧ (truthy v = false ∨ (toNumber v).isFinite = false → resolveTsP0 now v = .fin now)
    ∧ (∀ cap st m, Entry.key m ≠ "" →
        (mapGet (processEntry cap now st m).miners m.key).map Snapshot.last_ts
          = some (resolveTs now m.tsRaw))
    ∧ (∀ st m, Entry.key m ≠ "" →
        (mapGet (processEntryP0 now st m).miners m.key).map Snapshot.last_ts
          = some (resolveTsP0 now m.tsRaw)) :=
  ⟨resolveTs_isFinite now v, resolveTsP0_isFinite now v,
   resolveTs_of_finite now v, resolveTs_fallback now v,
   resolveTsP0_of_finite now v, resolveTsP0_fallback now v,
   fun cap st m h => processEntry_last_ts cap now st m h,
   fun st m h => processEntryP0_last_ts now st m h⟩

/-- C2 witness: a numeric-string `ts` is kept in both variants, the number 0
falls back to `now` in `part_000`, and a concretely ingested entry stores the
resolved timestamp. -/
theorem thm_C2_witness :
    resolveTs 5 (.str "7") = toNumber (.str "7")
    ∧ resolveTsP0 5 (.num (.fin 0)) = .fin 5
    ∧ (mapGet (processEntry HISTORY_MAX_POINTS 5 emptyStore
        ⟨.str "A", .undefined, none⟩).miners
          (Entry.key ⟨.str "A", .undefined, none⟩)).map Snapshot.last_ts
        = some (resolveTs 5 (Entry.tsRaw ⟨.str "A", .undefined, none⟩)) :=
  ⟨(thm_C2 5 (.str "7")).2.2.1 (by decide) (by decide),
   (thm_C2 5 (.num (.fin 0))).2.2.2.2.2.1 (Or.inl (by decide)),
   (thm_C2 5 (.str "A")).2.2.2.2.2.2.1 HISTORY_MAX_POINTS emptyStore
     ⟨.str "A", .undefined, none⟩ (by decide)⟩

/-- C3 counterexample: an entry whose id is the number 0 stringifies to "0" —
non-empty after trimming — yet the entry is skipped and the store left
unchanged: the handler replaces every falsy id with "" before the string
coercion, so emptiness-after-trim is not the whole skip condition. -/
theorem cex_C3 :
    processEntry HISTORY_MAX_POINTS 1000 emptyStore
        ⟨.num (.fin 0), .undefined, some [("x", .num (.fin 1))]⟩ = emptyStore
    ∧ jsTrim (toJSString (JSVal.num (.fin 0))) = "0"
    ∧ ("0" : String) ≠ "" :=
  ⟨rfl, rfl, by decide⟩

/-- C3 (amended): an entry is skipped — without raising, leaving the store
unchanged — exactly when its id is falsy or its string form trims to empty;
every entry whose id is truthy with non-empty trimmed string form is processed
normally, and the example batch of one empty-id entry and one entry with id
"A" stores exactly the device "A". -/
theorem thm_C3 (cap : Nat) (now : Int) (st : Store) (m : Entry) :
    (truthy m.id = false → processEntry cap now st m = st)
    ∧ (jsTrim (toJSString m.id) = "" → processEntry cap now st m = st)
    ∧ (truthy m.id = true → jsTrim (toJSString m.id) ≠ "" →
        mapGet (processEntry cap now st m).miners m.key
          = some ⟨m.key, toJSString (jsOr m.name (.str m.key)), resolveTs now m.tsRaw,
              m.metrics.getD []⟩)
    ∧ (ingestBatch cap now emptyStore
        [⟨.str "", .undefined, none⟩, ⟨.str "A", .undefined, none⟩]).miners.map Prod.fst
        = ["A"] := by
  refine ⟨?_, ?_, ?_, ?_⟩
  · intro h
    exact processEntry_skip cap now st m (key_of_falsy m h)
  · intro h
    by_cases ht : truthy m.id = true
    · exact processEntry_skip cap now st m ((key_of_truthy m ht).trans h)
    · exact processEntry_skip cap now st m (key_of_falsy m (by simpa using ht))
  · intro ht h
    have hk : m.key ≠ "" := by rw [key_of_truthy m ht]; exact h
    rw [processEntry_miners cap now st m hk, mapGet_mapSet_self]
  · have h1 : processEntry cap now emptyStore ⟨.str "", .undefined, none⟩ = emptyStore :=
      processEntry_skip cap now emptyStore _ rfl
    have h2 : Entry.key ⟨.str "A", .undefined, none⟩ ≠ "" := by decide
    simp only [ingestBatch, List.foldl_cons, List.foldl_nil]
    rw [h1, processEntry_miners cap now emptyStore _ h2]
    rfl

/-- C3 witness: a concrete empty-id entry is skipped, and a concrete entry
with id "B" is stored with all its normalized fields. -/
theorem thm_C3_witness :
    processEntry HISTORY_MAX_POINTS 7 emptyStore ⟨.str "", .undefined, none⟩ = emptyStore
    ∧ mapGet (processEntry HISTORY_MAX_POINTS 7 emptyStore
        ⟨.str "B", .undefined, none⟩).miners "B"
        = some ⟨"B", "B", .fin 7, []⟩ := by
  refine ⟨(thm_C3 HISTORY_MAX_POINTS 7 emptyStore ⟨.str "", .undefined, none⟩).1 (by decide), ?_⟩
  have h := (thm_C3 HISTORY_MAX_POINTS 7 emptyStore ⟨.str "B", .undefined, none⟩).2.2.1
    (by decide) (by decide)
  exact h

/-- C4: upserting a snapshot replaces any existing snapshot for that id
wholesale: after processing the same id twice, the miners map holds exactly
one binding for that id, whose name, `last_ts` and metrics are exactly those
of the second call, and any metric key absent from the metrics of the second call
is absent from the stored snapshot. -/
theorem thm_C4 (cap : Nat) (now1 now2 : Int) (st : Store) (e1 e2 : Entry) (i : String)
    (hn : (st.miners.map Prod.fst).Nodup)
    (h1 : e1.key = i) (h2 : e2.key = i) (hi : i ≠ "") :
    ((processEntry cap now2 (processEntry cap now1 st e1) e2).miners.filter
        (fun p => p.1 = i)).length = 1
    ∧ mapGet (processEntry cap now2 (processEntry cap now1 st e1) e2).miners i
        = some ⟨i, toJSString (jsOr e2.name (.str i)), resolveTs now2 e2.tsRaw,
            e2.metrics.getD []⟩
    ∧ (∀ k, objGet (e2.metrics.getD []) k = none →
        (mapGet (processEntry cap now2 (processEntry cap now1 st e1) e2).miners i).map
            (fun s => objGet s.metrics k)
          = some none) := by
  have hk1 : e1.key ≠ "" := by rw [h1]; exact hi
  have hk2 : e2.key ≠ "" := by rw [h2]; exact hi
  have hm1 := processEntry_miners cap now1 st e1 hk1
  have hm2 := processEntry_miners cap now2 (processEntry cap now1 st e1) e2 hk2
  rw [h1] at hm1
  rw [h2, hm1] at hm2
  have hget : mapGet (processEntry cap now2 (processEntry cap now1 st e1) e2).miners i
      = some ⟨i, toJSString (jsOr e2.name (.str i)), resolveTs now2 e2.tsRaw,
          e2.metrics.getD []⟩ := by
    rw [hm2, mapGet_mapSet_self]
  refine ⟨?_, hget, ?_⟩
  · apply filter_key_length_one
    · rw [hm2]
      exact nodup_keys_mapSet _ _ _ (nodup_keys_mapSet _ _ _ hn)
    · rw [hget]; rfl
  · intro k hk
    rw [hget]
    exact congrArg some hk

/-- C4 witness: ingesting id "A" twice leaves one binding whose fields are
those of the second call, with the metric key "a" of the first call no longer
present. -/
theorem thm_C4_witness :
    ((processEntry HISTORY_MAX_POINTS 2
        (processEntry HISTORY_MAX_POINTS 1 emptyStore
          ⟨.str "A", .str "N1", some [("a", .num (.fin 1))]⟩)
        ⟨.str "A", .str "N2", some [("b", .num (.fin 2))]⟩).miners.filter
          (fun p => p.1 = "A")).length = 1
    ∧ mapGet (processEntry HISTORY_MAX_POINTS 2
        (processEntry HISTORY_MAX_POINTS 1 emptyStore
          ⟨.str "A", .str "N1", some [("a", .num (.fin 1))]⟩)
        ⟨.str "A", .str "N2", some [("b", .num (.fin 2))]⟩).miners "A"
        = some ⟨"A", "N2", .fin 2, [("b", .num (.fin 2))]⟩ := by
  have h := thm_C4 HISTORY_MAX_POINTS 1 2 emptyStore
    ⟨.str "A", .str "N1", some [("a", .num (.fin 1))]⟩
    ⟨.str "A", .str "N2", some [("b", .num (.fin 2))]⟩ "A"
    (by decide) (by decide) (by decide) (by decide)
  exact ⟨h.1, h.2.1⟩

/-- C5 counterexample: with devices (id "b", name "Alpha") and (id "a", name
"Beta") the projector of the first variant lists the "Beta" device first — the
output is ordered by id alone, not primarily by name with id tiebreak as the
claim states. -/
theorem cex_C5 :
    ¬ (((listMiners (ingestBatch HISTORY_MAX_POINTS 0 emptyStore
          [⟨.str "b", .str "Alpha", none⟩,
            ⟨.str "a", .str "Beta", none⟩])).map Prod.fst).Pairwise specNameOrder) := by
  intro h
  have heval : (listMiners (ingestBatch HISTORY_MAX_POINTS 0 emptyStore
      [⟨.str "b", .str "Alpha", none⟩, ⟨.str "a", .str "Beta", none⟩])).map Prod.fst
      = [⟨"a", "Beta", .fin 0, []⟩, ⟨"b", "Alpha", .fin 0, []⟩] := by
    rw [listMiners_fst]
    rw [show minersList (ingestBatch HISTORY_MAX_POINTS 0 emptyStore
        [⟨.str "b", .str "Alpha", none⟩, ⟨.str "a", .str "Beta", none⟩])
      = [⟨"b", "Alpha", .fin 0, []⟩, ⟨"a", "Beta", .fin 0, []⟩] from rfl]
    rw [mergeSort_pair]
    rfl
  rw [heval] at h
  have hrel := List.rel_of_pairwise_cons h (List.mem_singleton.mpr rfl)
  unfold specNameOrder at hrel
  rcases hrel with hlt | ⟨heq, _⟩
  · exact absurd hlt (by decide)
  · exact absurd heq (by decide)

/-- C5 (amended): the first variant and `part_000` sort the device list by id
alone (locale-aware comparison modelled as code-point order) and return a
permutation of the stored snapshots; the second variant sorts by
`name || id` with no id tiebreak, so devices with equal names keep their
insertion order. -/
theorem thm_C5 (st : Store) :
    ((listMiners st).map Prod.fst).Pairwise (fun a b => strLe a.id b.id = true)
    ∧ ((listMiners st).map Prod.fst).Perm (minersList st)
    ∧ ((listMinersV2 st).map Prod.fst).Pairwise
        (fun a b => strLe (nameOrId a) (nameOrId b) = true)
    ∧ ((listMinersP0 st).map Prod.fst).Pairwise (fun a b => strLe a.id b.id = true) := by
  refine ⟨?_, ?_, ?_, ?_⟩
  · rw [listMiners_fst]
    exact @List.sorted_mergeSort Snapshot (fun a b => strLe a.id b.id)
      (fun a b c h1 h2 => strLe_trans _ _ _ h1 h2)
      (fun a b => strLe_total a.id b.id) (minersList st)
  · rw [listMiners_fst]
    exact List.mergeSort_perm _ _
  · rw [listMinersV2_fst]
    exact @List.sorted_mergeSort Snapshot (fun a b => strLe (nameOrId a) (nameOrId b))
      (fun a b c h1 h2 => strLe_trans _ _ _ h1 h2)
      (fun a b => strLe_total (nameOrId a) (nameOrId b)) (minersList st)
  · rw [listMinersP0_fst]
    exact @List.sorted_mergeSort Snapshot (fun a b => strLe a.id b.id)
      (fun a b c h1 h2 => strLe_trans _ _ _ h1 h2)
      (fun a b => strLe_total a.id b.id) (minersList st)

/-- C6 counterexample: an entry whose metrics carry `ts: "abc"` resolves its
timestamp to `now` (1000), yet the `ts` field of the appended history point is the
raw string "abc" — the spread `...metrics` overwrites the `ts:` written first
in the object literal. -/
theorem cex_C6 :
    ((mapGet (processEntry HISTORY_MAX_POINTS 1000 emptyStore
        ⟨.str "A", .undefined, some [("ts", .str "abc")]⟩).history "A").getD []).map
          (fun pt => objGet pt "ts")
      = [some (.str "abc")]
    ∧ resolveTs 1000 (.str "abc") = .fin 1000
    ∧ some (JSVal.str "abc") ≠ some (JSVal.num (.fin 1000)) :=
  ⟨rfl, rfl, by decide⟩

/-- C6 (amended): the history point built for a stored entry is
`mkPoint safeTs metrics`; its `ts` field equals the resolved timestamp
whenever the metrics map has no `ts` key, and equals the raw `metrics.ts`
value verbatim whenever the key is present (which coincides with the resolved
timestamp exactly when `metrics.ts` is already a finite number). -/
theorem thm_C6 (cap : Nat) (now : Int) (st : Store) (m : Entry) (safeTs : JSNum)
    (metrics : JSObj) :
    (objGet metrics "ts" = none →
        objGet (mkPoint safeTs metrics) "ts" = some (.num safeTs))
    ∧ (∀ v, (metrics.map Prod.fst).Nodup → objGet metrics "ts" = some v →
        objGet (mkPoint safeTs metrics) "ts" = some v)
    ∧ (m.key ≠ "" →
        mapGet (processEntry cap now st m).history m.key
          = some (appendBuf cap ((mapGet st.history m.key).getD [])
              (mkPoint (resolveTs now m.tsRaw) (m.metrics.getD [])))) := by
  refine ⟨mkPoint_ts_absent safeTs metrics,
    fun v hn h => mkPoint_ts_present safeTs v metrics hn h, ?_⟩
  intro h
  rw [processEntry_history cap now st m h, mapGet_mapSet_self]

/-- C6 witness: without a `ts` metric the point carries the resolved
timestamp; with one, the raw value wins. -/
theorem thm_C6_witness :
    objGet (mkPoint (.fin 7) [("a", .num (.fin 1))]) "ts" = some (.num (.fin 7))
    ∧ objGet (mkPoint (.fin 7) [("ts", .str "abc")]) "ts" = some (.str "abc") :=
  ⟨(thm_C6 HISTORY_MAX_POINTS 0 emptyStore ⟨.undefined, .undefined, none⟩ (.fin 7)
      [("a", .num (.fin 1))]).1 rfl,
   (thm_C6 HISTORY_MAX_POINTS 0 emptyStore ⟨.undefined, .undefined, none⟩ (.fin 7)
      [("ts", .str "abc")]).2.1 (.str "abc") (by decide) rfl⟩

/-- C7: an ingest request is rejected with the unauthorized response and an
unchanged store whenever the configured secret is empty — regardless of the
presented token — or the presented bearer token differs from the secret. -/
theorem thm_C7 (cap : Nat) (apiKey : String) (authHeader : Option String) (now : Int)
    (st : Store) (body : Option (List Entry)) :
    (apiKey = "" → postIngest cap apiKey authHeader now st body = (.unauthorized, st))
    ∧ (bearerToken (authHeader.getD "") ≠ apiKey →
        postIngest cap apiKey authHeader now st body = (.unauthorized, st)) := by
  constructor
  · intro h
    subst h
    simp [postIngest, authOk]
  · intro h
    have hb : (bearerToken (authHeader.getD "") == apiKey) = false :=
      beq_eq_false_iff_ne.mpr h
    simp [postIngest, authOk, hb]

/-- C7 witness: with no secret configured every request (even a well-formed
bearer header) is rejected, and with a secret a wrong token is rejected. -/
theorem thm_C7_witness :
    postIngest HISTORY_MAX_POINTS "" (some "Bearer anything") 0 emptyStore none
      = (.unauthorized, emptyStore)
    ∧ postIngest HISTORY_MAX_POINTS "k" (some "Bearer wrong") 0 emptyStore none
      = (.unauthorized, emptyStore) :=
  ⟨(thm_C7 HISTORY_MAX_POINTS "" (some "Bearer anything") 0 emptyStore none).1 rfl,
   (thm_C7 HISTORY_MAX_POINTS "k" (some "Bearer wrong") 0 emptyStore none).2 (by decide)⟩

/-- C8: on an authorized request the ingest response is `ok` with count equal
to the raw length of the submitted miners sequence — including entries later
skipped for lacking a usable identity — and an absent miners field yields
count 0. -/
theorem thm_C8 (cap : Nat) (apiKey : String) (authHeader : Option String) (now : Int)
    (st : Store) (body : Option (List Entry))
    (h : authOk apiKey (authHeader.getD "") = true) :
    (postIngest cap apiKey authHeader now st body).1 = .ok ((body.getD []).length)
    ∧ (postIngest cap apiKey authHeader now st none).1 = .ok 0 := by
  constructor
  · simp [postIngest, h]
  · simp [postIngest, h]

/-- C8 witness: a two-entry batch containing one malformed (empty-id) entry is
acknowledged with count 2, and an absent miners field with count 0. -/
theorem thm_C8_witness :
    (postIngest HISTORY_MAX_POINTS "k" (some "Bearer k") 3 emptyStore
        (some [⟨.str "", .undefined, none⟩, ⟨.str "A", .undefined, none⟩])).1 = .ok 2
    ∧ (postIngest HISTORY_MAX_POINTS "k" (some "Bearer k") 3 emptyStore none).1
        = .ok 0 := by
  have h := thm_C8 HISTORY_MAX_POINTS "k" (some "Bearer k") 3 emptyStore
    (some [⟨.str "", .undefined, none⟩, ⟨.str "A", .undefined, none⟩]) (by decide)
  exact ⟨h.1, h.2⟩

/-- C9: `slice(-n)` with a positive read cap returns the trailing
`min n length` points, a suffix of the buffer in unchanged (ascending arrival)
order, and each projector attaches exactly that slice of the per-device
buffer. -/
theorem thm_C9 (n : Nat) (hn : 0 < n) (l : List Point) :
    (jsSliceNeg n l).length = min n l.length
    ∧ l.take (l.length - n) ++ jsSliceNeg n l = l
    ∧ (∀ st p, p ∈ listMiners st →
        p.2 = jsSliceNeg 1600 ((mapGet st.history p.1.id).getD []))
    ∧ (∀ st p, p ∈ listMinersV2 st →
        p.2 = jsSliceNeg 2500 ((mapGet st.history p.1.id).getD []))
    ∧ (∀ st p, p ∈ listMinersP0 st →
        p.2 = jsSliceNeg 1200 ((mapGet st.history p.1.id).getD [])) := by
  refine ⟨jsSliceNeg_length n hn l, take_append_jsSliceNeg n hn l, ?_, ?_, ?_⟩
  · intro st p hp
    simp only [listMiners, List.mem_map] at hp
    rcases hp with ⟨m, hm, rfl⟩
    simp
  · intro st p hp
    simp only [listMinersV2, List.mem_map] at hp
    rcases hp with ⟨m, hm, rfl⟩
    simp
  · intro st p hp
    simp only [listMinersP0, List.mem_map] at hp
    rcases hp with ⟨m, hm, rfl⟩
    simp

/-- C9 witness: a three-point buffer sliced with cap 2 keeps the last two
points in order. -/
theorem thm_C9_witness :
    (jsSliceNeg 2 ([[("a", JSVal.null)], [("b", JSVal.null)], [("c", JSVal.null)]]
        : List Point)).length = min 2 3
    ∧ ([[("a", JSVal.null)], [("b", JSVal.null)], [("c", JSVal.null)]]
        : List Point).take (3 - 2)
        ++ jsSliceNeg 2 ([[("a", JSVal.null)], [("b", JSVal.null)], [("c", JSVal.null)]]
            : List Point)
      = [[("a", JSVal.null)], [("b", JSVal.null)], [("c", JSVal.null)]] := by
  have h := thm_C9 2 (by decide)
    ([[("a", JSVal.null)], [("b", JSVal.null)], [("c", JSVal.null)]] : List Point)
  exact ⟨h.1, h.2.1⟩

/-- C10: an entry whose id is falsy (0, false, null, "", undefined, NaN) is
skipped even when its string form is non-empty (such as "0" or "false"); a
truthy id whose string form trims to empty is also skipped; and exactly the
entries with a truthy id trimming to a non-empty string are stored. -/
theorem thm_C10 (cap : Nat) (now : Int) (st : Store) (m : Entry) :
    (truthy m.id = false → processEntry cap now st m = st)
    ∧ (truthy m.id = true → jsTrim (toJSString m.id) = "" →
        processEntry cap now st m = st)
    ∧ (truthy m.id = true → jsTrim (toJSString m.id) ≠ "" →
        (mapGet (processEntry cap now st m).miners
          (jsTrim (toJSString m.id))).isSome = true)
    ∧ toJSString (.num (.fin 0)) = "0"
    ∧ toJSString (.bool false) = "false" := by
  refine ⟨?_, ?_, ?_, rfl, rfl⟩
  · intro h
    exact processEntry_skip cap now st m (key_of_falsy m h)
  · intro ht h
    exact processEntry_skip cap now st m ((key_of_truthy m ht).trans h)
  · intro ht h
    have hk : m.key ≠ "" := by rw [key_of_truthy m ht]; exact h
    rw [← key_of_truthy m ht, processEntry_miners cap now st m hk, mapGet_mapSet_self]
    rfl

/-- C10 witness: the falsy id 0 is skipped although it stringifies to "0",
while the truthy id " x " is stored under its trimmed form "x". -/
theorem thm_C10_witness :
    processEntry HISTORY_MAX_POINTS 9 emptyStore ⟨.num (.fin 0), .undefined, none⟩
      = emptyStore
    ∧ (mapGet (processEntry HISTORY_MAX_POINTS 9 emptyStore
        ⟨.str " x ", .undefined, none⟩).miners "x").isSome = true := by
  refine ⟨(thm_C10 HISTORY_MAX_POINTS 9 emptyStore
      ⟨.num (.fin 0), .undefined, none⟩).1 (by decide), ?_⟩
  have h := (thm_C10 HISTORY_MAX_POINTS 9 emptyStore
      ⟨.str " x ", .undefined, none⟩).2.2.1 (by decide) (by decide)
  exact h
